import Mathlib

/-!
# Glow Market Hunter — verification of the search-enrich-dedupe-persist pipeline

Shallow embedding, in Lean 4, of the pure/algorithmic core of the
`glow-market-hunter` service, together with proofs (and refutations) of the
specified properties.

Embedded source functions (JS → Lean):

* `columnLetter` (src/unnamed/part_001) / `colLetter` (src/unnamed/part_005) —
  bijective base-26 spreadsheet column names;
* `splitCityCountry` (src/unnamed/part_001) — "City, Country" parsing;
* `normalizeKey` (src/unnamed/part_001) — dedupe-key normalization;
* the dedupe loops of the `/run-city` handler (src/index.js) and the
  `/search-and-append` handler (src/unnamed/part_001);
* `appendRowsToSheet` (src/unnamed/part_001), `appendRows` (src/index.js) and
  `appendRowsDedup` (src/unnamed/part_002) — row serialization and append;
* `textSearchAll` (src/index.js) / `textSearchAllPages` (src/unnamed/part_001)
  — the pagination loops, with an explicit request/sleep event trace;
* `getPlaceDetails` (src/index.js) / `placeDetails` (src/unnamed/part_002) —
  detail enrichment, parameterized by the transport outcome;
* `mapWithConcurrency` (src/unnamed/part_001) — the bounded worker pool,
  modelled as a small-step machine quantified over all interleavings.

JS strings are modelled as Lean `String` (or `List Char` where character-level
reasoning is needed); JS `null`/`undefined` as `Option.none`; thrown
exceptions as `Except.error`; timers and HTTP requests as explicit events in a
trace.
-/

/-! ## Column letters (C10)

`columnLetter` is from src/unnamed/part_001 lines 97–105:

```js
function columnLetter(n) \x7b
  let s = "";
  while (n > 0) \x7b
    const m = (n - 1) % 26;
    s = String.fromCharCode(65 + m) + s;
    n = Math.floor((n - m) / 26);
  \x7d
  return s;
\x7d
```

`colLetter` is from src/unnamed/part_005 lines 75–83; it differs only in the
update of `n`: `n = Math.floor((n - 1) / 26)`.

The loop prepends characters, so the recursive formulation appends the
character for the current (least-significant) digit after the recursive call.
-/

/-- `columnLetter` from src/unnamed/part_001: bijective base-26 column name,
with the loop update `n = Math.floor((n - m) / 26)`. -/
def columnLetter (n : Nat) : List Char :=
  if _h : n = 0 then []
  else
    let m := (n - 1) % 26
    columnLetter ((n - m) / 26) ++ [Char.ofNat (65 + m)]
termination_by n
decreasing_by
  have hm : (n - 1) % 26 ≤ n - 1 := Nat.mod_le _ _
  have h2 : 0 < n - (n - 1) % 26 := by omega
  have h3 := Nat.div_lt_self h2 (by norm_num : 1 < 26)
  omega

/-- `colLetter` from src/unnamed/part_005: same loop body but with the update
`n = Math.floor((n - 1) / 26)`. -/
def colLetter (n : Nat) : List Char :=
  if _h : n = 0 then []
  else
    let m := (n - 1) % 26
    colLetter ((n - 1) / 26) ++ [Char.ofNat (65 + m)]
termination_by n
decreasing_by
  have := Nat.div_le_self (n - 1) 26
  omega

/-- Value of a column name back in ℕ: the inverse reading of bijective
base 26, `fold acc*26 + (code - 64)`. -/
def colValue (s : List Char) : Nat :=
  s.foldl (fun acc c => acc * 26 + (c.toNat - 64)) 0

theorem colValue_append_digit (s : List Char) (c : Char) :
    colValue (s ++ [c]) = colValue s * 26 + (c.toNat - 64) := by
  simp [colValue, List.foldl_append]

theorem char_ofNat_toNat_digit (m : Nat) (hm : m < 26) :
    (Char.ofNat (65 + m)).toNat = 65 + m := by
  interval_cases m <;> decide

theorem colLetter_value (n : Nat) : colValue (colLetter n) = n := by
  induction n using Nat.strong_induction_on with
  | _ n ih =>
    rw [colLetter]
    by_cases h : n = 0
    · simp [h, colValue]
    · simp only [h, dif_neg, not_false_iff]
      have hq : (n - 1) / 26 < n := by
        have := Nat.div_le_self (n - 1) 26
        omega
      rw [colValue_append_digit, ih _ hq,
          char_ofNat_toNat_digit _ (Nat.mod_lt _ (by norm_num))]
      have := Nat.div_add_mod (n - 1) 26
      omega

theorem columnLetter_eq_colLetter (n : Nat) : columnLetter n = colLetter n := by
  induction n using Nat.strong_induction_on with
  | _ n ih =>
    rw [columnLetter, colLetter]
    by_cases h : n = 0
    · simp [h]
    · simp only [h, dif_neg, not_false_iff]
      have harg : (n - (n - 1) % 26) / 26 = (n - 1) / 26 := by
        have hdm := Nat.div_add_mod (n - 1) 26
        omega
      have hq : (n - 1) / 26 < n := by
        have := Nat.div_le_self (n - 1) 26
        omega
      rw [harg, ih _ hq]

theorem columnLetter_value (n : Nat) : colValue (columnLetter n) = n := by
  rw [columnLetter_eq_colLetter]
  exact colLetter_value n

theorem columnLetter_chars (n : Nat) :
    ∀ c ∈ columnLetter n, 65 ≤ c.toNat ∧ c.toNat ≤ 90 := by
  induction n using Nat.strong_induction_on with
  | _ n ih =>
    intro c hc
    rw [columnLetter] at hc
    by_cases h : n = 0
    · simp [h] at hc
    · simp only [h, dif_neg, not_false_iff, List.mem_append,
        List.mem_singleton] at hc
      rcases hc with hc | hc
      · refine ih _ ?_ c hc
        have hm : (n - 1) % 26 ≤ n - 1 := Nat.mod_le _ _
        have h2 : 0 < n - (n - 1) % 26 := by omega
        have h3 := Nat.div_lt_self h2 (by norm_num : 1 < 26)
        omega
      · subst hc
        have hm : (n - 1) % 26 < 26 := Nat.mod_lt _ (by norm_num)
        rw [char_ofNat_toNat_digit _ hm]
        omega

/-- C10: for every n ≥ 1, `columnLetter n` is the bijective base-26
spreadsheet column name — it agrees with `colLetter` on every input, decodes
back to `n` under the bijective base-26 valuation, uses only the character
codes of `A`–`Z` (65–90), and takes the documented values at 1, 26, 27, 52 and
703. -/
theorem columnLetter_bijective_base26 (n : Nat) (hn : 1 ≤ n) :
    columnLetter n = colLetter n ∧
    colValue (columnLetter n) = n ∧
    (∀ c ∈ columnLetter n, 65 ≤ c.toNat ∧ c.toNat ≤ 90) ∧
    columnLetter 1 = ['A'] ∧ columnLetter 26 = ['Z'] ∧
    columnLetter 27 = ['A', 'A'] ∧ columnLetter 52 = ['A', 'Z'] ∧
    columnLetter 703 = ['A', 'A', 'A'] := by
  refine ⟨columnLetter_eq_colLetter n, columnLetter_value n,
    columnLetter_chars n, ?_, ?_, ?_, ?_, ?_⟩ <;> simp [columnLetter]

/-- Witness for C10 at n = 703. -/
theorem columnLetter_bijective_base26_witness :
    columnLetter 703 = colLetter 703 ∧ colValue (columnLetter 703) = 703 :=
  ⟨(columnLetter_bijective_base26 703 (by norm_num)).1,
   (columnLetter_bijective_base26 703 (by norm_num)).2.1⟩

/-! ## splitCityCountry (C9)

From src/unnamed/part_001 lines 171–175:

```js
function splitCityCountry(cityString) \x7b
  const parts = cityString.split(",").map((x) => x.trim());
  if (parts.length === 1) return \x7b city: parts[0], country: "" \x7d;
  return \x7b city: parts[0], country: parts[parts.length - 1] \x7d;
\x7d
```

Strings are modelled as `List Char`; `splitComma` mirrors JS
`String.prototype.split(",")` (note `"".split(",") = [""]`), and `trimChars`
mirrors `String.prototype.trim`.
-/

/-- JS `s.split(",")` on a character list; always returns a nonempty list of
segments. -/
def splitComma : List Char → List (List Char)
  | [] => [[]]
  | c :: rest =>
    if c = ',' then [] :: splitComma rest
    else
      match splitComma rest with
      | [] => [[c]]
      | s :: ss => (c :: s) :: ss

/-- JS `s.trim()`: drop leading and trailing whitespace. -/
def trimChars (l : List Char) : List Char :=
  ((l.dropWhile Char.isWhitespace).reverse.dropWhile Char.isWhitespace).reverse

/-- `splitCityCountry` from src/unnamed/part_001. -/
def splitCityCountry (s : List Char) : List Char × List Char :=
  let parts := (splitComma s).map trimChars
  if parts.length = 1 then (parts.headD [], [])
  else (parts.headD [], parts.getLastD [])

theorem splitComma_ne_nil (s : List Char) : splitComma s ≠ [] := by
  match s with
  | [] => simp [splitComma]
  | c :: rest =>
    by_cases h : c = ','
    · simp [splitComma, h]
    · simp only [splitComma, h, if_false]
      match splitComma rest with
      | [] => simp
      | x :: xs => simp

theorem splitComma_no_comma (s : List Char) (h : ',' ∉ s) :
    splitComma s = [s] := by
  induction s with
  | nil => rfl
  | cons c rest ih =>
    have hc : c ≠ ',' := fun hc => h (hc ▸ List.mem_cons_self c rest)
    have hrest : ',' ∉ rest := fun hr => h (List.mem_cons_of_mem c hr)
    simp only [splitComma, hc, if_false, ih hrest]

theorem splitComma_prefix (a rest : List Char) (ha : ',' ∉ a) :
    splitComma (a ++ ',' :: rest) = a :: splitComma rest := by
  induction a with
  | nil => simp [splitComma]
  | cons c a' ih =>
    have hc : c ≠ ',' := fun hc => ha (hc ▸ List.mem_cons_self c a')
    have ha' : ',' ∉ a' := fun hr => ha (List.mem_cons_of_mem c hr)
    rw [List.cons_append]
    rw [show splitComma (c :: (a' ++ ',' :: rest)) =
        (match splitComma (a' ++ ',' :: rest) with
         | [] => [[c]]
         | s :: ss => (c :: s) :: ss) by simp [splitComma, hc]]
    rw [ih ha']

theorem splitComma_length_two (x y : List Char) :
    2 ≤ (splitComma (x ++ ',' :: y)).length := by
  induction x with
  | nil =>
    have := splitComma_ne_nil y
    simp only [List.nil_append, splitComma, if_pos rfl, List.length_cons]
    cases hsy : splitComma y with
    | nil => exact absurd hsy this
    | cons a l => simp
  | cons c x' ih =>
    by_cases hc : c = ','
    · subst hc
      have := splitComma_ne_nil (x' ++ ',' :: y)
      simp only [List.cons_append, splitComma, if_pos rfl, List.length_cons]
      cases hs : splitComma (x' ++ ',' :: y) with
      | nil => exact absurd hs this
      | cons a l => simp
    · simp only [List.cons_append, splitComma, hc, if_false]
      cases hs : splitComma (x' ++ ',' :: y) with
      | nil => exact absurd hs (splitComma_ne_nil _)
      | cons a l =>
        rw [hs] at ih
        simp only [List.length_cons] at ih ⊢
        omega

theorem splitComma_getLast (x y : List Char) (hy : ',' ∉ y) :
    (splitComma (x ++ ',' :: y)).getLastD [] = y := by
  induction x with
  | nil =>
    simp only [List.nil_append, splitComma, if_pos rfl,
      splitComma_no_comma y hy]
    rfl
  | cons c x' ih =>
    by_cases hc : c = ','
    · subst hc
      rw [List.cons_append]
      rw [show splitComma (',' :: (x' ++ ',' :: y)) =
          [] :: splitComma (x' ++ ',' :: y) by simp [splitComma]]
      cases hs : splitComma (x' ++ ',' :: y) with
      | nil => exact absurd hs (splitComma_ne_nil _)
      | cons a l =>
        rw [hs] at ih
        exact ih
    · rw [List.cons_append]
      rw [show splitComma (c :: (x' ++ ',' :: y)) =
          (match splitComma (x' ++ ',' :: y) with
           | [] => [[c]]
           | s :: ss => (c :: s) :: ss) by simp [splitComma, hc]]
      cases hs : splitComma (x' ++ ',' :: y) with
      | nil => exact absurd hs (splitComma_ne_nil _)
      | cons a l =>
        have h2 := splitComma_length_two x' y
        rw [hs] at h2 ih
        cases l with
        | nil => simp at h2
        | cons b l' => exact ih

theorem headD_map {α β : Type} (f : α → β) (l : List α) (d : α) :
    (l.map f).headD (f d) = f (l.headD d) := by
  cases l <;> rfl

theorem getLastD_map {α β : Type} (f : α → β) (l : List α) (d : α) :
    (l.map f).getLastD (f d) = f (l.getLastD d) := by
  induction l generalizing d with
  | nil => rfl
  | cons a l ih =>
    rw [List.map_cons, List.getLastD_cons, List.getLastD_cons]
    exact ih a

theorem trimChars_nil : trimChars [] = [] := rfl

/-- C9: `splitCityCountry` returns the first comma-separated segment
(trimmed) as the city and the last comma-separated segment (trimmed) as the
country; with no comma the whole trimmed string is the city and the country is
empty; middle segments are discarded from both fields. -/
theorem splitCityCountry_segments :
    (∀ s : List Char, ',' ∉ s → splitCityCountry s = (trimChars s, [])) ∧
    (∀ a b : List Char, ',' ∉ a → ',' ∉ b →
      splitCityCountry (a ++ ',' :: b) = (trimChars a, trimChars b)) ∧
    (∀ a mid b : List Char, ',' ∉ a → ',' ∉ b →
      splitCityCountry (a ++ ',' :: (mid ++ ',' :: b)) =
        (trimChars a, trimChars b)) := by
  refine ⟨?_, ?_, ?_⟩
  · intro s hs
    simp [splitCityCountry, splitComma_no_comma s hs]
  · intro a b ha hb
    rw [splitCityCountry, splitComma_prefix a b ha, splitComma_no_comma b hb]
    simp
  · intro a mid b ha hb
    rw [splitCityCountry, splitComma_prefix a (mid ++ ',' :: b) ha]
    have hlen := splitComma_length_two mid b
    have hlast := splitComma_getLast mid b hb
    cases hX : splitComma (mid ++ ',' :: b) with
    | nil => exact absurd hX (splitComma_ne_nil _)
    | cons x X0 =>
      rw [hX] at hlast
      simp only [List.map_cons, List.length_cons, List.length_map,
        List.headD_cons]
      have hne : ¬ (X0.length + 1 + 1 = 1) := by omega
      rw [if_neg hne]
      refine Prod.ext rfl ?_
      show ((trimChars a :: trimChars x :: X0.map trimChars)).getLastD [] =
        trimChars b
      rw [List.getLastD_cons, List.getLastD_cons]
      rw [← hlast, List.getLastD_cons]
      exact getLastD_map trimChars X0 x

/-- Witness for C9 on "Bogotá, D.C., Colombia": city "Bogotá", country
"Colombia", the middle segment "D.C." discarded. -/
theorem splitCityCountry_segments_witness :
    splitCityCountry ("Bogotá, D.C., Colombia".toList) =
      ("Bogotá".toList, "Colombia".toList) := by
  have h := splitCityCountry_segments.2.2 "Bogotá".toList " D.C.".toList
    " Colombia".toList (by decide) (by decide)
  rw [show ("Bogotá, D.C., Colombia".toList) =
      "Bogotá".toList ++ ',' :: (" D.C.".toList ++ ',' :: " Colombia".toList)
    by decide]
  rw [h]
  decide

/-! ## Headers, row serialization and append (C2, C8)

Canonical headers:

* `SHEET_HEADERS` — the 12-column header of src/unnamed/part_001 (also
  `HEADERS` of src/unnamed/part_002 and src/unnamed/part_005);
* `HEADERS` — the 13-column header of src/index.js (it also has a `query`
  column).

`appendRowsToSheet` (src/unnamed/part_001 lines 82–95) serializes object rows
with `chunk.map((r) => SHEET_HEADERS.map((h) => r[h] ?? ""))`, in chunks of
`SHEETS_APPEND_CHUNK = 300` rows per `values.append` call.

`appendRows` (src/index.js lines 106–116) takes already-built positional
arrays and appends them, returning `\x7b appended: 0 \x7d` with no API call when
`rows` is empty.

`appendRowsDedup` (src/unnamed/part_002 lines 235–279) returns
`\x7b added: 0, skipped: 0 \x7d` before any Sheets call when `rows` is empty;
otherwise it ensures the sheet, reads `A1:Z`, collects existing `place_id`s,
filters, and appends the surviving rows.

Rows-as-objects are modelled as `String → Option String` (field lookup;
`none` models an absent field, so `r[h] ?? ""` is `(r h).getD ""`).
External Sheets API calls are modelled as explicit effects; the remote
service's behavior (including rejection) is a parameter.
-/

def SHEET_HEADERS : List String :=
  ["timestamp", "country", "city", "category", "name", "phone", "website",
   "lat", "lng", "address", "place_id", "source"]

def HEADERS : List String :=
  ["timestamp", "country", "city", "query", "category", "name", "phone",
   "website", "lat", "lng", "address", "place_id", "source"]

def SHEETS_APPEND_CHUNK : Nat := 300

/-- One row object serialized positionally against a header list:
`headers.map((h) => r[h] ?? "")`. -/
def rowToArray (headers : List String) (r : String → Option String) :
    List String :=
  headers.map (fun h => (r h).getD "")

/-- The `for (let i = 0; i < rows.length; i += SHEETS_APPEND_CHUNK)` chunking
of `appendRowsToSheet`. -/
def chunksOf (l : List (String → Option String)) :
    List (List (String → Option String)) :=
  if _h : l.length = 0 then []
  else l.take SHEETS_APPEND_CHUNK :: chunksOf (l.drop SHEETS_APPEND_CHUNK)
termination_by l.length
decreasing_by
  simp only [List.length_drop, SHEETS_APPEND_CHUNK]
  omega

/-- `appendRowsToSheet` from src/unnamed/part_001: the sequence of
`values.append` payloads (one list of row-arrays per API call). -/
def appendRowsToSheet (rows : List (String → Option String)) :
    List (List (List String)) :=
  (chunksOf rows).map (fun chunk => chunk.map (rowToArray SHEET_HEADERS))

theorem chunksOf_flatten (l : List (String → Option String)) :
    (chunksOf l).flatten = l := by
  generalize hn : l.length = n
  induction n using Nat.strong_induction_on generalizing l with
  | _ n ih =>
    rw [chunksOf]
    by_cases h : l.length = 0
    · simp only [h, dif_pos]
      rw [List.length_eq_zero.mp h]
      rfl
    · simp only [h, dif_neg, not_false_iff, List.flatten_cons]
      have hlt : (l.drop SHEETS_APPEND_CHUNK).length < n := by
        simp only [List.length_drop, SHEETS_APPEND_CHUNK]
        omega
      rw [ih _ hlt _ rfl, List.take_append_drop]

/-- All row-arrays actually appended by `appendRowsToSheet`, across chunks,
in order. -/
theorem appendRowsToSheet_flatten (rows : List (String → Option String)) :
    (appendRowsToSheet rows).flatten = rows.map (rowToArray SHEET_HEADERS) := by
  rw [appendRowsToSheet, ← List.map_flatten, chunksOf_flatten]

/-- The hard-coded row literal of the `/run-city` handler in src/index.js
lines 240–254. -/
structure RunCityRow where
  timestamp : String
  country : String
  city : String
  query : String
  category : String
  name : String
  phone : String
  website : String
  lat : String
  lng : String
  address : String
  place_id : String
  source : String

/-- The literal `[nowISO, country, city, query, category, name, phone,
website, lat, lng, address, pid, source]` from src/index.js. -/
def runCityRowLiteral (r : RunCityRow) : List String :=
  [r.timestamp, r.country, r.city, r.query, r.category, r.name, r.phone,
   r.website, r.lat, r.lng, r.address, r.place_id, r.source]

/-- Field of a run-city row by canonical column name. -/
def runCityField (r : RunCityRow) : String → String
  | "timestamp" => r.timestamp
  | "country" => r.country
  | "city" => r.city
  | "query" => r.query
  | "category" => r.category
  | "name" => r.name
  | "phone" => r.phone
  | "website" => r.website
  | "lat" => r.lat
  | "lng" => r.lng
  | "address" => r.address
  | "place_id" => r.place_id
  | "source" => r.source
  | _ => ""

/-- C2 (amended): rows serialized by `appendRowsToSheet` are derived by
mapping the header list to object-field lookups, so position i of the array
is the field named by the header at position i for ANY header list (hence any
permutation), and the full appended sequence across chunks is exactly the
input rows serialized in order; the `/run-city` handler of src/index.js
instead pushes a hard-coded literal array, which is position-aligned with
that file's canonical 13-column `HEADERS` order (but not derived from it). -/
theorem appendRowsToSheet_header_aligned :
    (∀ (headers : List String) (r : String → Option String) (i : Nat),
       i < headers.length →
       (rowToArray headers r).getD i "" = (r (headers.getD i "")).getD "") ∧
    (∀ rows, (appendRowsToSheet rows).flatten =
       rows.map (rowToArray SHEET_HEADERS)) ∧
    (∀ (r : RunCityRow) (i : Nat), i < HEADERS.length →
       (runCityRowLiteral r).getD i "" = runCityField r (HEADERS.getD i "")) := by
  refine ⟨?_, appendRowsToSheet_flatten, ?_⟩
  · intro headers r i h
    simp [rowToArray, List.getD_eq_getElem?_getD, List.getElem?_eq_getElem h]
  · intro r i h
    simp only [HEADERS, List.length_cons, List.length_nil] at h
    interval_cases i <;> rfl

/-- Witness for C2 (amended) at a concrete header list, row object and the
run-city literal. -/
theorem appendRowsToSheet_header_aligned_witness :
    (rowToArray ["phone", "name"]
        (fun h => if h = "name" then some "Glow" else none)).getD 1 "" =
      "Glow" ∧
    (runCityRowLiteral ⟨"t", "CO", "Bogota", "q", "cat", "n", "p", "w", "1",
        "2", "a", "id", "s"⟩).getD 3 "" = "q" := by
  constructor
  · rw [appendRowsToSheet_header_aligned.1 ["phone", "name"]
      (fun h => if h = "name" then some "Glow" else none) 1 (by norm_num)]
    rfl
  · rw [appendRowsToSheet_header_aligned.2.2
      ⟨"t", "CO", "Bogota", "q", "cat", "n", "p", "w", "1", "2", "a", "id",
        "s"⟩ 3 (by norm_num [HEADERS])]
    rfl

/-- The 13-column header with `country` and `city` swapped: a permutation of
`HEADERS`. -/
def HEADERS_swapped : List String :=
  ["timestamp", "city", "country", "query", "category", "name", "phone",
   "website", "lat", "lng", "address", "place_id", "source"]

/-- A concrete run-city row used to refute permutation stability of the
hard-coded literal. -/
def rowCex : RunCityRow :=
  ⟨"2024-01-01", "CO", "Bogota", "barberias Bogota CO", "barberias", "Shop",
   "123", "https://x", "4.6", "-74.1", "Calle 1", "pid1", "Glow Places"⟩

/-- C2 counterexample: the row literal of the `/run-city` handler in
src/index.js is NOT derived from the header list — under the valid
permutation `HEADERS_swapped` of `HEADERS`, position 1 of the literal no
longer holds the field named by the header at position 1. -/
theorem runCityRowLiteral_not_permutation_stable :
    HEADERS_swapped.Perm HEADERS ∧
    (runCityRowLiteral rowCex).getD 1 "" ≠
      runCityField rowCex (HEADERS_swapped.getD 1 "") := by
  constructor
  · exact List.Perm.cons _ (List.Perm.swap _ _ _)
  · decide

/-! ## appendRows / appendRowsDedup on the empty list (C8)

`appendRows` from src/index.js lines 106–116:

```js
async function appendRows(sheets, sheetId, sheetName, rows) \x7b
  if (!rows.length) return \x7b appended: 0 \x7d;
  await sheets.spreadsheets.values.append(\x7b ... values: rows ... \x7d);
  return \x7b appended: rows.length \x7d;
\x7d
```

`appendRowsDedup` from src/unnamed/part_002 lines 235–279: returns
`\x7b added: 0, skipped: 0 \x7d` before any Sheets call when `rows` is empty;
otherwise ensures the sheet and headers, reads `A1:Z`, collects the existing
`place_id` column values, filters the incoming rows, and appends the
survivors (RAW mode).

The Sheets service is a parameter: `remote` is the combined outcome of the
ensure+read phase (`.error` = some call rejected, `.ok values` = the `A1:Z`
read result), and `appendApi` is the outcome of the final append call. The
effect list records which calls were issued.
-/

/-- Effects against the external spreadsheet store. -/
inductive SheetEff
  | ensure
  | read
  | append (values : List (List String))

/-- Result shape of `appendRowsDedup` in src/unnamed/part_002. -/
structure DedupResult where
  added : Nat
  skipped : Nat
deriving DecidableEq

/-- `appendRows` from src/index.js, with the external append call as a
parameter and an explicit effect trace. -/
def appendRows (api : List (List String) → Except String Unit)
    (rows : List (List String)) : Except String (Nat × List SheetEff) :=
  if rows.length = 0 then .ok (0, [])
  else
    match api rows with
    | .error e => .error e
    | .ok _ => .ok (rows.length, [SheetEff.append rows])

/-- `appendRowsDedup` from src/unnamed/part_002. -/
def appendRowsDedup (remote : Except String (List (List String)))
    (appendApi : List (List String) → Except String Unit)
    (rows : List (List String)) : Except String (DedupResult × List SheetEff) :=
  if rows.length = 0 then .ok (⟨0, 0⟩, [])
  else
    match remote with
    | .error e => .error e
    | .ok values =>
      let header := values.headD []
      let existing : List String :=
        match header.findIdx? (· == "place_id") with
        | none => []
        | some pidIdx =>
          (values.drop 1).filterMap (fun row =>
            let pid := row.getD pidIdx ""
            if pid = "" then none else some pid)
      let filtered := rows.filter (fun r =>
        let pid := r.getD (SHEET_HEADERS.indexOf "place_id") ""
        !(pid == "") && !(existing.contains pid))
      if filtered.length = 0 then
        .ok (⟨0, rows.length⟩, [SheetEff.ensure, SheetEff.read])
      else
        match appendApi filtered with
        | .error e => .error e
        | .ok _ =>
          .ok (⟨filtered.length, rows.length - filtered.length⟩,
            [SheetEff.ensure, SheetEff.read, SheetEff.append filtered])

/-- C8: on the empty row list, `appendRows` and `appendRowsDedup` are no-ops:
whatever the destination service would do, they issue no Sheets call at all
(empty effect trace), never return an error, and report 0 rows appended. -/
theorem appendRows_empty_noop :
    (∀ api, appendRows api [] = Except.ok (0, [])) ∧
    (∀ remote appendApi,
      appendRowsDedup remote appendApi [] = Except.ok (⟨0, 0⟩, [])) :=
  ⟨fun _ => rfl, fun _ _ => rfl⟩

/-! ## Deduplication (C1, C6)

`normalizeKey` from src/unnamed/part_001 lines 569–576:

```js
function normalizeKey(s) \x7b
  return (s || "")
    .toLowerCase()
    .normalize("NFD")
    .replace(/[̀-ͯ]/g, "")
    .replace(/\s+/g, " ")
    .trim();
\x7d
```

Strings are `List Char`. `.normalize("NFD")` delegates to the JS runtime's
Unicode canonical-decomposition table; `nfdChar` models that table for the
Latin precomposed characters that occur in this repository's domain (Spanish
city/business names) and is the identity elsewhere.
-/

/-- Unicode NFD canonical decomposition (modelled for the lowercase Latin
precomposed characters of this repository's domain; identity elsewhere).
`'́'` etc. are the combining marks U+0300–U+0327. -/
def nfdChar : Char → List Char
  | 'á' => ['a', '́']
  | 'é' => ['e', '́']
  | 'í' => ['i', '́']
  | 'ó' => ['o', '́']
  | 'ú' => ['u', '́']
  | 'à' => ['a', '̀']
  | 'è' => ['e', '̀']
  | 'ì' => ['i', '̀']
  | 'ò' => ['o', '̀']
  | 'ù' => ['u', '̀']
  | 'â' => ['a', '̂']
  | 'ê' => ['e', '̂']
  | 'î' => ['i', '̂']
  | 'ô' => ['o', '̂']
  | 'û' => ['u', '̂']
  | 'ã' => ['a', '̃']
  | 'õ' => ['o', '̃']
  | 'ñ' => ['n', '̃']
  | 'ä' => ['a', '̈']
  | 'ë' => ['e', '̈']
  | 'ï' => ['i', '̈']
  | 'ö' => ['o', '̈']
  | 'ü' => ['u', '̈']
  | 'ç' => ['c', '̧']
  | c => [c]

/-- `.replace(/\s+/g, " ")`: each maximal whitespace run becomes one space.
The Boolean argument tracks whether the previous character was part of a
whitespace run already replaced. -/
def collapseWsAux : Bool → List Char → List Char
  | _, [] => []
  | prevWs, c :: rest =>
    if c.isWhitespace then
      if prevWs then collapseWsAux true rest
      else ' ' :: collapseWsAux true rest
    else c :: collapseWsAux false rest

/-- `.replace(/\s+/g, " ")`: collapse each whitespace run to one space. -/
def collapseWs (l : List Char) : List Char :=
  collapseWsAux false l

/-- `normalizeKey` from src/unnamed/part_001: lowercase, NFD-decompose,
strip the combining marks U+0300–U+036F, collapse whitespace, trim. -/
def normalizeKey (s : List Char) : List Char :=
  trimChars (collapseWs
    (((s.map Char.toLower).flatMap nfdChar).filter
      (fun c => decide ¬(0x300 ≤ c.toNat ∧ c.toNat ≤ 0x36F))))

/-- A search-result candidate as it reaches the dedupe block of the
`/search-and-append` handler (src/unnamed/part_001 lines 672–697): the
fields that determine its identity. -/
structure Cand where
  place_id : List Char
  name : List Char
  address : List Char
deriving DecidableEq

/-- `const pid = (p.place_id || "").trim();`. -/
def pidOf (c : Cand) : List Char := trimChars c.place_id

/-- The composite fallback key
`` `fallback:${normalizeKey(p.name)}|${normalizeKey(p.address)}` ``. -/
def fallbackComposite (c : Cand) : List Char :=
  "fallback:".toList ++ normalizeKey c.name ++ '|' :: normalizeKey c.address

/-- `const fallKey = pid || `fallback:...`;` — the key actually consulted
against the per-category `seenBatch` set. -/
def fallKey (c : Cand) : List Char :=
  if pidOf c = [] then fallbackComposite c else pidOf c

/-- Modelled from the spec: "**DedupeKey** — providerId when non-empty;
otherwise a composite of normalized(name) + \"|\" + normalized(address)".
Used only to state key-sharing between accepted rows. -/
def specDedupeKey (c : Cand) : List Char :=
  if pidOf c = [] then normalizeKey c.name ++ '|' :: normalizeKey c.address
  else pidOf c

/-- State of the `/search-and-append` dedupe loop: accepted rows so far
(across categories), the per-category `seenBatch` set, and the run-wide
`existingPlaceIds` set. -/
structure SAState where
  accepted : List Cand
  seenBatch : List (List Char)
  existing : List (List Char)

/-- One iteration of `for (const p of detailed)` in the dedupe block of
src/unnamed/part_001 lines 672–697 (`none` models a `null` entry, skipped by
`if (!p) continue`). -/
def saStep (s : SAState) (po : Option Cand) : SAState :=
  match po with
  | none => s
  | some p =>
    let pid := pidOf p
    if pid ≠ [] ∧ pid ∈ s.existing then s
    else
      let k := fallKey p
      if k ∈ s.seenBatch then s
      else
        { accepted := s.accepted ++ [p],
          seenBatch := k :: s.seenBatch,
          existing := if pid ≠ [] then pid :: s.existing else s.existing }

theorem saStep_some (s : SAState) (p : Cand) :
    saStep s (some p) =
      if pidOf p ≠ [] ∧ pidOf p ∈ s.existing then s
      else if fallKey p ∈ s.seenBatch then s
      else
        { accepted := s.accepted ++ [p],
          seenBatch := fallKey p :: s.seenBatch,
          existing :=
            if pidOf p ≠ [] then pidOf p :: s.existing else s.existing } :=
  rfl

/-- One category of the `/search-and-append` handler: fold the dedupe step
over the detailed results (`seenBatch` is freshly empty in the caller). -/
def saCat (s : SAState) (cands : List (Option Cand)) : SAState :=
  cands.foldl saStep s

/-- The whole `/search-and-append` run: iterate categories, resetting
`seenBatch` (`const seenBatch = new Set();` is inside the category loop)
while `accepted` and `existing` carry across. -/
def saRun (ex : List (List Char)) (cats : List (List (Option Cand))) :
    SAState :=
  cats.foldl (fun s cat => saCat { s with seenBatch := [] } cat)
    ⟨[], [], ex⟩

/-- State of the `/run-city` dedupe loop in src/index.js lines 227–258:
pids of accepted rows, and the `existingIds` set. -/
structure RCState where
  accepted : List (List Char)
  existing : List (List Char)

/-- One iteration of `for (const r of results)` in src/index.js:
`if (!pid || existingIds.has(pid)) continue; ... existingIds.add(pid);`. -/
def rcStep (s : RCState) (pid : List Char) : RCState :=
  if pid = [] ∨ pid ∈ s.existing then s
  else { accepted := s.accepted ++ [pid], existing := pid :: s.existing }

/-- The whole `/run-city` dedupe run over the categories' result lists. -/
def runCityRun (ex : List (List Char)) (cats : List (List (List Char))) :
    RCState :=
  cats.foldl (fun s cat => cat.foldl rcStep s) ⟨[], ex⟩

theorem foldl_preserve {σ α : Type} (P : σ → Prop) (f : σ → α → σ)
    (hstep : ∀ s a, P s → P (f s a)) :
    ∀ (l : List α) (s : σ), P s → P (l.foldl f s) := by
  intro l
  induction l with
  | nil => intro s h; exact h
  | cons a l ih => intro s h; exact ih _ (hstep s a h)

/-- Invariant of the `/run-city` dedupe loop: accepted pids are distinct,
non-empty, recorded in `existing`, and absent from the seed `ex`. -/
def RCInv (ex : List (List Char)) (s : RCState) : Prop :=
  s.accepted.Nodup ∧
  (∀ p ∈ s.accepted, p ∈ s.existing ∧ p ∉ ex ∧ p ≠ []) ∧
  ex ⊆ s.existing

theorem rcStep_inv (ex : List (List Char)) (s : RCState) (pid : List Char)
    (h : RCInv ex s) : RCInv ex (rcStep s pid) := by
  obtain ⟨hnd, hmem, hsub⟩ := h
  unfold rcStep
  by_cases hc : pid = [] ∨ pid ∈ s.existing
  · simpa [hc] using ⟨hnd, hmem, hsub⟩
  · push_neg at hc
    obtain ⟨hne, hnotin⟩ := hc
    rw [if_neg (by push_neg; exact ⟨hne, hnotin⟩)]
    have hnacc : pid ∉ s.accepted := fun hmem' => hnotin (hmem _ hmem').1
    refine ⟨?_, ?_, ?_⟩
    · exact hnd.append (List.nodup_singleton _)
        (fun a ha hb => by
          rw [List.mem_singleton] at hb
          exact absurd (hb ▸ ha) hnacc)
    · intro p hp
      rcases List.mem_append.mp hp with hp | hp
      · exact ⟨List.mem_cons_of_mem _ (hmem _ hp).1, (hmem _ hp).2.1,
          (hmem _ hp).2.2⟩
      · rw [List.mem_singleton] at hp
        subst hp
        exact ⟨List.mem_cons_self _ _, fun hex => hnotin (hsub hex), hne⟩
    · exact fun x hx => List.mem_cons_of_mem _ (hsub hx)

theorem runCityRun_inv (ex : List (List Char))
    (cats : List (List (List Char))) : RCInv ex (runCityRun ex cats) := by
  refine foldl_preserve (RCInv ex) _ ?_ cats ⟨[], ex⟩
    ⟨List.nodup_nil, by simp, fun x hx => hx⟩
  intro s cat h
  exact foldl_preserve (RCInv ex) rcStep (rcStep_inv ex) cat s h

/-- Invariant of the `/search-and-append` run (across categories): accepted
rows with a non-empty pid have pairwise-distinct pids, all recorded in
`existing` and absent from the seed `ex`. -/
def SAInv (ex : List (List Char)) (s : SAState) : Prop :=
  (∀ p ∈ s.accepted, pidOf p ≠ [] → pidOf p ∈ s.existing ∧ pidOf p ∉ ex) ∧
  ((s.accepted.map pidOf).filter (fun q => !q.isEmpty)).Nodup ∧
  ex ⊆ s.existing

theorem saStep_inv (ex : List (List Char)) (s : SAState) (po : Option Cand)
    (h : SAInv ex s) : SAInv ex (saStep s po) := by
  obtain ⟨hmem, hnd, hsub⟩ := h
  match po with
  | none => exact ⟨hmem, hnd, hsub⟩
  | some p =>
    rw [saStep_some]
    by_cases h1 : pidOf p ≠ [] ∧ pidOf p ∈ s.existing
    · simpa [h1] using ⟨hmem, hnd, hsub⟩
    · rw [if_neg h1]
      by_cases h2 : fallKey p ∈ s.seenBatch
      · simpa [h2] using ⟨hmem, hnd, hsub⟩
      · rw [if_neg h2]
        by_cases hpid : pidOf p = []
        · refine ⟨?_, ?_, by simpa [hpid] using hsub⟩
          · intro q hq hqne
            rcases List.mem_append.mp hq with hq | hq
            · simpa [hpid] using hmem q hq hqne
            · rw [List.mem_singleton] at hq
              subst hq
              exact absurd hpid hqne
          · simpa [List.filter_append, hpid] using hnd
        · have hnotin : pidOf p ∉ s.existing := fun hin => h1 ⟨hpid, hin⟩
          rw [if_pos hpid]
          refine ⟨?_, ?_, ?_⟩
          · intro q hq hqne
            rcases List.mem_append.mp hq with hq | hq
            · exact ⟨List.mem_cons_of_mem _ ((hmem q hq hqne).1),
                (hmem q hq hqne).2⟩
            · rw [List.mem_singleton] at hq
              subst hq
              exact ⟨List.mem_cons_self _ _, fun hin => hnotin (hsub hin)⟩
          · rw [List.map_append, List.filter_append]
            have hb : (pidOf p).isEmpty = false := by
              simp [List.isEmpty_iff, hpid]
            have hsingle :
                ([p].map pidOf).filter (fun q => !q.isEmpty) = [pidOf p] := by
              simp [List.filter, hb]
            rw [hsingle]
            refine hnd.append (List.nodup_singleton _) ?_
            intro a ha hb
            rw [List.mem_singleton] at hb
            subst hb
            rw [List.mem_filter] at ha
            obtain ⟨hamem, hane⟩ := ha
            rw [List.mem_map] at hamem
            obtain ⟨q, hq, hq2⟩ := hamem
            have : pidOf q ≠ [] := by
              rw [hq2]
              simpa [List.isEmpty_iff] using hane
            exact hnotin (hq2 ▸ (hmem q hq this).1)
          · exact fun x hx => List.mem_cons_of_mem _ (hsub hx)

theorem saRun_inv (ex : List (List Char)) (cats : List (List (Option Cand))) :
    SAInv ex (saRun ex cats) := by
  refine foldl_preserve (SAInv ex) _ ?_ cats ⟨[], [], ex⟩
    ⟨by simp, by simp, fun x hx => hx⟩
  intro s cat h
  have hreset : SAInv ex { s with seenBatch := [] } := h
  exact foldl_preserve (SAInv ex) saStep (saStep_inv ex) cat _ hreset

/-- Within one category batch: newly accepted rows have pairwise-distinct
`fallKey`s, all recorded in `seenBatch`. -/
def BatchInv (acc₀ : List Cand) (s : SAState) : Prop :=
  ∃ new, s.accepted = acc₀ ++ new ∧ (new.map fallKey).Nodup ∧
    ∀ k ∈ new.map fallKey, k ∈ s.seenBatch

theorem saStep_batchInv (acc₀ : List Cand) (s : SAState) (po : Option Cand)
    (h : BatchInv acc₀ s) : BatchInv acc₀ (saStep s po) := by
  obtain ⟨new, hacc, hnd, hseen⟩ := h
  match po with
  | none => exact ⟨new, hacc, hnd, hseen⟩
  | some p =>
    rw [saStep_some]
    by_cases h1 : pidOf p ≠ [] ∧ pidOf p ∈ s.existing
    · simpa [h1] using ⟨new, hacc, hnd, hseen⟩
    · rw [if_neg h1]
      by_cases h2 : fallKey p ∈ s.seenBatch
      · simpa [h2] using ⟨new, hacc, hnd, hseen⟩
      · rw [if_neg h2]
        refine ⟨new ++ [p], by rw [hacc, List.append_assoc], ?_, ?_⟩
        · rw [List.map_append]
          refine hnd.append (List.nodup_singleton _) ?_
          intro a ha hb
          rw [List.map_singleton, List.mem_singleton] at hb
          subst hb
          exact h2 (hseen _ ha)
        · intro k hk
          rw [List.map_append, List.mem_append] at hk
          rcases hk with hk | hk
          · exact List.mem_cons_of_mem _ (hseen _ hk)
          · rw [List.map_singleton, List.mem_singleton] at hk
            subst hk
            exact List.mem_cons_self _ _

theorem saCat_batch_nodup (ex : List (List Char)) (acc₀ : List Cand)
    (cands : List (Option Cand)) :
    ∃ new, (saCat ⟨acc₀, [], ex⟩ cands).accepted = acc₀ ++ new ∧
      (new.map fallKey).Nodup := by
  have h := foldl_preserve (BatchInv acc₀) saStep (saStep_batchInv acc₀)
    cands ⟨acc₀, [], ex⟩ ⟨[], by simp, by simp, by simp⟩
  obtain ⟨new, hacc, hnd, _⟩ := h
  exact ⟨new, hacc, hnd⟩

theorem fallKey_of_no_pid (c : Cand) (h : pidOf c = []) :
    fallKey c = fallbackComposite c := by
  simp [fallKey, h]

theorem fallKey_of_pid (c : Cand) (h : pidOf c ≠ []) :
    fallKey c = pidOf c := by
  simp [fallKey, h]

/-- A candidate of the `/search-and-append` handler with an empty provider
identifier (the fallback-key path). -/
def candNoId : Cand := ⟨[], "Foo".toList, "Bar".toList⟩

/-- C1 counterexample: in the `/search-and-append` handler, the fallback
(name+address) key lives only in the per-category `seenBatch`, which is reset
between categories — so the same no-identifier candidate occurring in two
categories of one run is accepted twice, and the two accepted rows share a
DedupeKey. -/
theorem saRun_fallback_cross_category_duplicate :
    (saRun [] [[some candNoId], [some candNoId]]).accepted =
      [candNoId, candNoId] ∧
    ¬ ((saRun [] [[some candNoId], [some candNoId]]).accepted.map
        specDedupeKey).Nodup := by
  exact ⟨by decide, by decide⟩

/-- C1 (amended): dedupe-key uniqueness holds run-wide for provider
identifiers but only per-category for fallback keys. In `/run-city`
(src/index.js) accepted pids are pairwise distinct, non-empty and absent from
the pre-loaded set. In `/search-and-append` (src/unnamed/part_001) the
non-empty pids of accepted rows are pairwise distinct across the whole run
and absent from the pre-loaded set (each accepted pid is inserted
immediately), while `fallKey` uniqueness is guaranteed within a single
category batch. -/
theorem dedupe_uniqueness_scope :
    (∀ (ex : List (List Char)) (cats : List (List (List Char))),
      (runCityRun ex cats).accepted.Nodup ∧
      ∀ p ∈ (runCityRun ex cats).accepted, p ∉ ex ∧ p ≠ []) ∧
    (∀ (ex : List (List Char)) (cats : List (List (Option Cand))),
      (((saRun ex cats).accepted.map pidOf).filter
        (fun q => !q.isEmpty)).Nodup ∧
      ∀ p ∈ (saRun ex cats).accepted, pidOf p ≠ [] → pidOf p ∉ ex) ∧
    (∀ (ex : List (List Char)) (acc₀ : List Cand)
      (cands : List (Option Cand)),
      ∃ new, (saCat ⟨acc₀, [], ex⟩ cands).accepted = acc₀ ++ new ∧
        (new.map fallKey).Nodup) := by
  refine ⟨fun ex cats => ?_, fun ex cats => ?_, saCat_batch_nodup⟩
  · have h := runCityRun_inv ex cats
    exact ⟨h.1, fun p hp => ⟨(h.2.1 p hp).2.1, (h.2.1 p hp).2.2⟩⟩
  · have h := saRun_inv ex cats
    exact ⟨h.2.1, fun p hp hne => (h.1 p hp hne).2⟩

/-- Witness for C1 (amended) on a concrete two-category run. -/
theorem dedupe_uniqueness_scope_witness :
    (runCityRun [] [["p1".toList, "p1".toList],
        ["p2".toList, "p1".toList]]).accepted.Nodup ∧
    ("p1".toList ∉ ([] : List (List Char)) ∧ "p1".toList ≠ []) := by
  refine ⟨(dedupe_uniqueness_scope.1 [] _).1,
    (dedupe_uniqueness_scope.1 []
      [["p1".toList, "p1".toList], ["p2".toList, "p1".toList]]).2
      "p1".toList ?_⟩
  decide

/-- Candidate whose name contains the `|` separator. -/
def candPipeA : Cand := ⟨[], "a|b".toList, "c".toList⟩

/-- Candidate whose address absorbs the `|` of `candPipeA`'s name. -/
def candPipeB : Cand := ⟨[], "a".toList, "b|c".toList⟩

/-- C6 counterexample: two no-identifier candidates with different
normalized names (and different normalized addresses) are nevertheless
treated as duplicates — `candPipeB` is dropped against `candPipeA` in the
same batch — because the composite key `normalized(name)|normalized(address)`
is not injective when a name contains the separator `|`. This refutes
"duplicates exactly when normalized names and addresses are equal". -/
theorem fallbackKey_pipe_collision :
    pidOf candPipeA = [] ∧ pidOf candPipeB = [] ∧
    normalizeKey candPipeA.name ≠ normalizeKey candPipeB.name ∧
    fallKey candPipeA = fallKey candPipeB ∧
    (saCat ⟨[], [], []⟩ [some candPipeA, some candPipeB]).accepted =
      [candPipeA] := by
  exact ⟨by decide, by decide, by decide, by decide, by decide⟩

/-- C6 (amended): for empty-identifier candidates the Deduplicator treats two
candidates as duplicates exactly when their composite keys
`normalized(name) ++ "|" ++ normalized(address)` coincide (equality of
normalized names and addresses is sufficient but, because a name can contain
the separator `|`, not necessary); in one batch only the first of two
composite-key-equal candidates is accepted; and two candidates with distinct
non-empty identifiers are never deduplicated against each other, even with
identical name and address. -/
theorem dedupe_fallback_key_semantics :
    (∀ c₁ c₂ : Cand, pidOf c₁ = [] → pidOf c₂ = [] →
      (fallKey c₁ = fallKey c₂ ↔
        normalizeKey c₁.name ++ '|' :: normalizeKey c₁.address =
          normalizeKey c₂.name ++ '|' :: normalizeKey c₂.address)) ∧
    (∀ (ex : List (List Char)) (c₁ c₂ : Cand), pidOf c₁ = [] → pidOf c₂ = [] →
      normalizeKey c₁.name = normalizeKey c₂.name →
      normalizeKey c₁.address = normalizeKey c₂.address →
      (saCat ⟨[], [], ex⟩ [some c₁, some c₂]).accepted = [c₁]) ∧
    (∀ (ex : List (List Char)) (c₁ c₂ : Cand), pidOf c₁ ≠ [] → pidOf c₂ ≠ [] →
      pidOf c₁ ≠ pidOf c₂ → pidOf c₁ ∉ ex → pidOf c₂ ∉ ex →
      (saCat ⟨[], [], ex⟩ [some c₁, some c₂]).accepted = [c₁, c₂]) := by
  refine ⟨?_, ?_, ?_⟩
  · intro c₁ c₂ h1 h2
    rw [fallKey_of_no_pid c₁ h1, fallKey_of_no_pid c₂ h2, fallbackComposite,
      fallbackComposite, List.append_assoc, List.append_assoc]
    exact ⟨fun h => List.append_cancel_left h, fun h => by rw [h]⟩
  · intro ex c₁ c₂ h1 h2 hn ha
    have hk : fallKey c₂ = fallKey c₁ := by
      rw [fallKey_of_no_pid c₁ h1, fallKey_of_no_pid c₂ h2,
        fallbackComposite, fallbackComposite, hn, ha]
    have s1 : saStep ⟨[], [], ex⟩ (some c₁) = ⟨[c₁], [fallKey c₁], ex⟩ := by
      rw [saStep_some, if_neg (fun hc => hc.1 h1),
        if_neg (List.not_mem_nil _)]
      simp [h1]
    have s2 : saStep ⟨[c₁], [fallKey c₁], ex⟩ (some c₂) =
        ⟨[c₁], [fallKey c₁], ex⟩ := by
      rw [saStep_some, if_neg (fun hc => hc.1 h2),
        if_pos (by rw [hk]; exact List.mem_singleton.mpr rfl)]
    show (saStep (saStep ⟨[], [], ex⟩ (some c₁)) (some c₂)).accepted = [c₁]
    rw [s1, s2]
  · intro ex c₁ c₂ h1 h2 hne hx1 hx2
    have s1 : saStep ⟨[], [], ex⟩ (some c₁) =
        ⟨[c₁], [fallKey c₁], pidOf c₁ :: ex⟩ := by
      rw [saStep_some, if_neg (fun hc => hx1 hc.2),
        if_neg (List.not_mem_nil _), if_pos h1]
      simp
    have s2 : saStep ⟨[c₁], [fallKey c₁], pidOf c₁ :: ex⟩ (some c₂) =
        ⟨[c₁, c₂], [fallKey c₂, fallKey c₁], pidOf c₂ :: pidOf c₁ :: ex⟩ := by
      rw [saStep_some]
      rw [if_neg (fun hc => by
        rcases List.mem_cons.mp hc.2 with hh | hh
        · exact hne hh.symm
        · exact hx2 hh)]
      rw [if_neg (by
        rw [List.mem_singleton, fallKey_of_pid c₁ h1, fallKey_of_pid c₂ h2]
        exact fun hh => hne hh.symm)]
      rw [if_pos h2]
      simp
    show (saStep (saStep ⟨[], [], ex⟩ (some c₁)) (some c₂)).accepted =
      [c₁, c₂]
    rw [s1, s2]

/-- Candidates with identical normalized name+address but distinct non-empty
pids. -/
def candSameA : Cand := ⟨"p1".toList, "Glow Spa".toList, "Calle 1".toList⟩

/-- Second candidate with the same name/address as `candSameA`. -/
def candSameB : Cand := ⟨"p2".toList, "Glow Spa".toList, "Calle 1".toList⟩

/-- No-pid candidate whose key normalizes (case, accents, whitespace) to the
same as `candDupB`. -/
def candDupA : Cand := ⟨[], "Glow  Spá".toList, "Calle 1".toList⟩

/-- No-pid duplicate of `candDupA` up to normalization. -/
def candDupB : Cand := ⟨[], "glow spa".toList, "calle 1".toList⟩

/-- Witness for C6 (amended) on concrete candidates. -/
theorem dedupe_fallback_key_semantics_witness :
    (saCat ⟨[], [], []⟩ [some candDupA, some candDupB]).accepted =
      [candDupA] ∧
    (saCat ⟨[], [], []⟩ [some candSameA, some candSameB]).accepted =
      [candSameA, candSameB] := by
  constructor
  · exact dedupe_fallback_key_semantics.2.1 [] candDupA candDupB
      (by decide) (by decide) (by decide) (by decide)
  · exact dedupe_fallback_key_semantics.2.2 [] candSameA candSameB
      (by decide) (by decide) (by decide) (by decide) (by decide)

/-! ## Place details enrichment (C7)

`getPlaceDetails` from src/index.js lines 151–170:

```js
async function getPlaceDetails(place_id) \x7b
  ...
  const r = await fetch(`...`);
  const data = await r.json();
  if (data.status !== "OK") return null;
  return data.result;
\x7d
```

`placeDetails` from src/unnamed/part_002 lines 174–208: on non-OK status it
returns an explicit placeholder record; on OK it builds the detail with the
phone precedence `international_phone_number || formatted_phone_number ||
"N/A"` and `sanitizePhone`.

Neither function contains a try/catch: the transport layer (a rejected
`fetch`, or `r.json()` throwing on a non-JSON error body) is a parameter
`tr : Except String DetailsResponse`, whose `.error` case models the thrown
exception. Coordinates are carried opaquely as `Option Int` (`none` = the
`?? ""` / missing-geometry case).
-/

/-- Provider detail payload (`data.result`), fields optional as in JSON. -/
structure DetailResult where
  place_id : Option (List Char)
  name : Option (List Char)
  formatted_address : Option (List Char)
  formatted_phone_number : Option (List Char)
  international_phone_number : Option (List Char)
  website : Option (List Char)
  lat : Option Int
  lng : Option Int
deriving DecidableEq

/-- Provider response body for the details endpoint. -/
structure DetailsResponse where
  status : String
  result : Option DetailResult
deriving DecidableEq

/-- The `"N/A"` placeholder. -/
def naStr : List Char := "N/A".toList

/-- JS `x || y` for an optional string `x`: `y` when `x` is nullish or
empty. -/
def jsOr (x : Option (List Char)) (y : List Char) : List Char :=
  match x with
  | none => y
  | some s => if s = [] then y else s

/-- `sanitizePhone` from src/unnamed/part_002 lines 128–139: strip
directionality control characters, collapse whitespace, trim, and force a
leading apostrophe so Sheets treats the phone as text. -/
def sanitizePhone (p : List Char) : List Char :=
  if p = [] ∨ p = naStr then naStr
  else
    let s := trimChars (collapseWs (p.filter (fun c =>
      decide ¬(c.toNat = 0x200E ∨ c.toNat = 0x200F ∨
        (0x202A ≤ c.toNat ∧ c.toNat ≤ 0x202E)))))
    if s.head? = some (Char.ofNat 39) then s else Char.ofNat 39 :: s

/-- `getPlaceDetails` from src/index.js: `null` on non-OK status,
`data.result` on OK; a transport exception propagates (no try/catch). -/
def getPlaceDetails (tr : Except String DetailsResponse) :
    Except String (Option DetailResult) :=
  match tr with
  | .error e => .error e
  | .ok data => if data.status ≠ "OK" then .ok none else .ok data.result

/-- Result record of `placeDetails` in src/unnamed/part_002. -/
structure PlaceDetail where
  place_id : List Char
  name : List Char
  address : List Char
  phone : List Char
  website : List Char
  lat : Option Int
  lng : Option Int
deriving DecidableEq

/-- `placeDetails` from src/unnamed/part_002: placeholder record on non-OK
status; on OK, fields with `|| "N/A"` defaulting and the phone precedence
`international || formatted || "N/A"` under `sanitizePhone`; a transport
exception propagates (no try/catch). -/
def placeDetails (place_id : List Char) (tr : Except String DetailsResponse) :
    Except String PlaceDetail :=
  match tr with
  | .error e => .error e
  | .ok data =>
    if data.status ≠ "OK" then
      .ok ⟨place_id, naStr, naStr, naStr, naStr, none, none⟩
    else
      let d := data.result
      let rawPhone := jsOr (d.bind (·.international_phone_number))
        (jsOr (d.bind (·.formatted_phone_number)) naStr)
      .ok ⟨jsOr (d.bind (·.place_id))
             (if place_id = [] then naStr else place_id),
           jsOr (d.bind (·.name)) naStr,
           jsOr (d.bind (·.formatted_address)) naStr,
           sanitizePhone rawPhone,
           jsOr (d.bind (·.website)) naStr,
           d.bind (·.lat),
           d.bind (·.lng)⟩

/-- C7 counterexample: when the transport itself fails (a rejected fetch or
a thrown body-parse error), neither `getPlaceDetails` nor `placeDetails`
degrades to a placeholder detail — the exception propagates to the caller
(in src/index.js's `/run-city` and src/unnamed/part_002's pipeline the call
sites do not catch it, so it aborts the batch). -/
theorem placeDetails_transport_error_propagates :
    getPlaceDetails (Except.error "ETIMEDOUT") =
      Except.error "ETIMEDOUT" ∧
    placeDetails "pid1".toList (Except.error "ETIMEDOUT") =
      Except.error "ETIMEDOUT" :=
  ⟨rfl, rfl⟩

/-- C7 (amended): a non-success provider STATUS never aborts the batch —
`getPlaceDetails` returns `null` and `placeDetails` returns the explicit
placeholder record, with no error; but a transport-level thrown failure
propagates out of both functions unchanged. -/
theorem details_degrade_on_bad_status :
    (∀ resp : DetailsResponse, resp.status ≠ "OK" →
      getPlaceDetails (Except.ok resp) = Except.ok none) ∧
    (∀ (pid : List Char) (resp : DetailsResponse), resp.status ≠ "OK" →
      placeDetails pid (Except.ok resp) =
        Except.ok ⟨pid, naStr, naStr, naStr, naStr, none, none⟩) ∧
    (∀ e, getPlaceDetails (Except.error e) = Except.error e) ∧
    (∀ pid e, placeDetails pid (Except.error e) = Except.error e) := by
  refine ⟨fun resp h => ?_, fun pid resp h => ?_, fun e => rfl,
    fun pid e => rfl⟩
  · simp [getPlaceDetails, h]
  · simp [placeDetails, h]

/-- Witness for C7 (amended) at a concrete quota-exhausted response. -/
theorem details_degrade_on_bad_status_witness :
    getPlaceDetails (Except.ok ⟨"OVER_QUERY_LIMIT", none⟩) =
      Except.ok none ∧
    placeDetails "pid1".toList (Except.ok ⟨"OVER_QUERY_LIMIT", none⟩) =
      Except.ok ⟨"pid1".toList, naStr, naStr, naStr, naStr, none, none⟩ :=
  ⟨details_degrade_on_bad_status.1 ⟨"OVER_QUERY_LIMIT", none⟩ (by decide),
   details_degrade_on_bad_status.2.1 "pid1".toList
     ⟨"OVER_QUERY_LIMIT", none⟩ (by decide)⟩

/-! ## Text-search pagination (C5)

`textSearchAll` from src/index.js lines 124–148 (comment in source: "Text
Search con paginación sin límite" — pagination WITHOUT limit):

```js
while (true) \x7b
  const r = await fetch(url);
  const data = await r.json();
  if (data.status !== "OK" && data.status !== "ZERO_RESULTS") \x7b
    console.error(...);   // log only, not fatal
  \x7d
  all.push(...(data.results || []));
  if (!data.next_page_token) break;
  await sleep(2200);
  url = `...pagetoken=...`;
\x7d
```

`textSearchAllPages` from src/unnamed/part_001 lines 110–147 is the same
loop, but a bad status throws, and the inter-page delay is
`NEXT_PAGE_DELAY_MS = 2000`.

The provider is modelled as a function from the request ordinal to the page
it answers; the loop carries an explicit event trace (`request k`,
`sleep ms`). Because the JS loops are unbounded `while (true)`, the Lean
embedding takes a fuel argument: `none` means the loop has not exited within
`fuel` iterations — so "no fuel suffices" is exactly non-termination of the
source loop.
-/

/-- One text-search response page. -/
structure Page where
  status : String
  results : List Nat
  next_page_token : Option String

/-- Observable events of the pagination loop. -/
inductive PageEv
  | request (k : Nat)
  | sleep (ms : Nat)
deriving DecidableEq

/-- The loop body of `textSearchAll` (src/index.js): accumulate every page's
results (a bad status only logs), exit when no continuation token, else
sleep 2200 ms and fetch the next page. -/
def textSearchAllGo (prov : Nat → Page) :
    Nat → Nat → List Nat → List PageEv → Option (List Nat × List PageEv)
  | 0, _, _, _ => none
  | fuel + 1, k, acc, tr =>
    let data := prov k
    let acc' := acc ++ data.results
    let tr' := tr ++ [PageEv.request k]
    match data.next_page_token with
    | none => some (acc', tr')
    | some _ =>
      textSearchAllGo prov fuel (k + 1) acc' (tr' ++ [PageEv.sleep 2200])

/-- `textSearchAll` from src/index.js (fuel-indexed). -/
def textSearchAll (prov : Nat → Page) (fuel : Nat) :
    Option (List Nat × List PageEv) :=
  textSearchAllGo prov fuel 0 [] []

/-- The loop body of `textSearchAllPages` (src/unnamed/part_001): a status
other than OK/ZERO_RESULTS throws; otherwise as `textSearchAllGo` with a
2000 ms delay. -/
def textSearchAllPagesGo (prov : Nat → Page) :
    Nat → Nat → List Nat → List PageEv →
      Option (Except String (List Nat × List PageEv))
  | 0, _, _, _ => none
  | fuel + 1, k, acc, tr =>
    let data := prov k
    if data.status ≠ "OK" ∧ data.status ≠ "ZERO_RESULTS" then
      some (.error data.status)
    else
      let acc' := acc ++ data.results
      let tr' := tr ++ [PageEv.request k]
      match data.next_page_token with
      | none => some (.ok (acc', tr'))
      | some _ =>
        textSearchAllPagesGo prov fuel (k + 1) acc' (tr' ++ [PageEv.sleep 2000])

/-- `textSearchAllPages` from src/unnamed/part_001 (fuel-indexed). -/
def textSearchAllPages (prov : Nat → Page) (fuel : Nat) :
    Option (Except String (List Nat × List PageEv)) :=
  textSearchAllPagesGo prov fuel 0 [] []

/-- Provider stub serving the given pages in order with OK status: every page
except the last carries a continuation token (the misbehaving upstream of the
claim is instead `alwaysTokenProvider`). -/
def stubProvider (pages : List (List Nat)) : Nat → Page :=
  fun k =>
    { status := "OK", results := pages.getD k [],
      next_page_token :=
        if k + 1 < pages.length then some "tok" else none }

/-- An upstream that always returns a continuation token. -/
def alwaysTokenProvider : Nat → Page :=
  fun _ => { status := "OK", results := [], next_page_token := some "tok" }

/-- The expected trace for `n` pages starting at request ordinal `k`:
requests separated by `ms`-long sleeps. -/
def pageTraceFrom (ms k : Nat) : Nat → List PageEv
  | 0 => []
  | 1 => [PageEv.request k]
  | n + 2 =>
    PageEv.request k :: PageEv.sleep ms :: pageTraceFrom ms (k + 1) (n + 1)

/-- Number of `request` events in a trace. -/
def countRequests (tr : List PageEv) : Nat :=
  (tr.filter (fun e => match e with | .request _ => true | _ => false)).length

/-- Number of `sleep` events in a trace. -/
def countSleeps (tr : List PageEv) : Nat :=
  (tr.filter (fun e => match e with | .sleep _ => true | _ => false)).length

/-- All sleeps in a trace last exactly `ms`. -/
def sleepsAre (ms : Nat) (tr : List PageEv) : Prop :=
  ∀ e ∈ tr, ∀ d, e = PageEv.sleep d → d = ms

theorem pageTraceFrom_spec (ms : Nat) :
    ∀ (n k : Nat), countRequests (pageTraceFrom ms k n) = n ∧
      countSleeps (pageTraceFrom ms k n) = n - 1 ∧
      sleepsAre ms (pageTraceFrom ms k n) := by
  intro n
  induction n using Nat.strong_induction_on with
  | _ n ih =>
    intro k
    match n with
    | 0 => exact ⟨rfl, rfl, fun e he d hd => by simp [pageTraceFrom] at he⟩
    | 1 =>
      refine ⟨rfl, rfl, fun e he d hd => ?_⟩
      simp only [pageTraceFrom, List.mem_singleton] at he
      rw [he] at hd
      exact absurd hd (by simp)
    | m + 2 =>
      have h := ih (m + 1) (by omega) (k + 1)
      refine ⟨?_, ?_, ?_⟩
      · have hstep : countRequests (pageTraceFrom ms k (m + 2)) =
            countRequests (pageTraceFrom ms (k + 1) (m + 1)) + 1 := rfl
        rw [hstep, h.1]
      · have hstep : countSleeps (pageTraceFrom ms k (m + 2)) =
            countSleeps (pageTraceFrom ms (k + 1) (m + 1)) + 1 := rfl
        rw [hstep, h.2.1]
        omega
      · intro e he d hd
        simp only [pageTraceFrom, List.mem_cons] at he
        rcases he with he | he | he
        · rw [he] at hd; exact absurd hd (by simp)
        · exact ((PageEv.sleep.injEq ms d).mp (he.symm.trans hd)).symm
        · exact h.2.2 e he d hd

theorem textSearchAllGo_succ (prov : Nat → Page) (fuel k : Nat)
    (acc : List Nat) (tr : List PageEv) :
    textSearchAllGo prov (fuel + 1) k acc tr =
      match (prov k).next_page_token with
      | none => some (acc ++ (prov k).results, tr ++ [PageEv.request k])
      | some _ =>
        textSearchAllGo prov fuel (k + 1) (acc ++ (prov k).results)
          ((tr ++ [PageEv.request k]) ++ [PageEv.sleep 2200]) :=
  rfl

theorem textSearchAllPagesGo_succ (prov : Nat → Page) (fuel k : Nat)
    (acc : List Nat) (tr : List PageEv) :
    textSearchAllPagesGo prov (fuel + 1) k acc tr =
      if (prov k).status ≠ "OK" ∧ (prov k).status ≠ "ZERO_RESULTS" then
        some (Except.error (prov k).status)
      else
        match (prov k).next_page_token with
        | none => some (Except.ok (acc ++ (prov k).results, tr ++ [PageEv.request k]))
        | some _ =>
          textSearchAllPagesGo prov fuel (k + 1) (acc ++ (prov k).results)
            ((tr ++ [PageEv.request k]) ++ [PageEv.sleep 2000]) :=
  rfl

theorem stub_drop_cons (pages : List (List Nat)) (k : Nat)
    (hk : k < pages.length) :
    pages.drop k = pages.getD k [] :: pages.drop (k + 1) := by
  rw [List.drop_eq_getElem_cons hk]
  congr 1
  simp [List.getD_eq_getElem?_getD, List.getElem?_eq_getElem hk]

theorem stub_trace_cons (ms k n : Nat) (h2 : 2 ≤ n) :
    pageTraceFrom ms k n =
      PageEv.request k :: PageEv.sleep ms :: pageTraceFrom ms (k + 1) (n - 1) := by
  obtain ⟨m, hm⟩ : ∃ m, n = m + 2 := ⟨n - 2, by omega⟩
  subst hm
  have h3 : m + 2 - 1 = m + 1 := by omega
  rw [h3]
  rfl

theorem textSearchAllGo_stub (pages : List (List Nat)) :
    ∀ (fuel k : Nat) (acc : List Nat) (tr : List PageEv),
      k < pages.length → pages.length - k ≤ fuel →
      textSearchAllGo (stubProvider pages) fuel k acc tr =
        some (acc ++ (pages.drop k).flatten,
          tr ++ pageTraceFrom 2200 k (pages.length - k)) := by
  intro fuel
  induction fuel with
  | zero => intro k acc tr hk hf; omega
  | succ fuel ih =>
    intro k acc tr hk hf
    rw [textSearchAllGo_succ]
    by_cases hlast : k + 1 < pages.length
    · have htok : (stubProvider pages k).next_page_token = some "tok" := by
        simp [stubProvider, hlast]
      rw [htok]
      show textSearchAllGo (stubProvider pages) fuel (k + 1)
          (acc ++ (stubProvider pages k).results)
          ((tr ++ [PageEv.request k]) ++ [PageEv.sleep 2200]) = _
      rw [ih (k + 1) _ _ hlast (by omega)]
      have hres : (stubProvider pages k).results = pages.getD k [] := rfl
      rw [hres, stub_drop_cons pages k hk,
        stub_trace_cons 2200 k (pages.length - k) (by omega)]
      have heq : pages.length - k - 1 = pages.length - (k + 1) := by omega
      rw [heq]
      simp [List.append_assoc]
    · have htok : (stubProvider pages k).next_page_token = none := by
        simp [stubProvider, hlast]
      rw [htok]
      show some (acc ++ (stubProvider pages k).results,
          tr ++ [PageEv.request k]) = _
      have h1 : pages.length - k = 1 := by omega
      rw [h1]
      have hdropflat : (pages.drop k).flatten = pages.getD k [] := by
        rw [stub_drop_cons pages k hk, List.drop_eq_nil_of_le (by omega)]
        simp
      rw [hdropflat]
      rfl

theorem textSearchAllPagesGo_stub (pages : List (List Nat)) :
    ∀ (fuel k : Nat) (acc : List Nat) (tr : List PageEv),
      k < pages.length → pages.length - k ≤ fuel →
      textSearchAllPagesGo (stubProvider pages) fuel k acc tr =
        some (Except.ok (acc ++ (pages.drop k).flatten,
          tr ++ pageTraceFrom 2000 k (pages.length - k))) := by
  intro fuel
  induction fuel with
  | zero => intro k acc tr hk hf; omega
  | succ fuel ih =>
    intro k acc tr hk hf
    rw [textSearchAllPagesGo_succ]
    rw [if_neg (by simp [stubProvider])]
    by_cases hlast : k + 1 < pages.length
    · have htok : (stubProvider pages k).next_page_token = some "tok" := by
        simp [stubProvider, hlast]
      rw [htok]
      show textSearchAllPagesGo (stubProvider pages) fuel (k + 1)
          (acc ++ (stubProvider pages k).results)
          ((tr ++ [PageEv.request k]) ++ [PageEv.sleep 2000]) = _
      rw [ih (k + 1) _ _ hlast (by omega)]
      have hres : (stubProvider pages k).results = pages.getD k [] := rfl
      rw [hres, stub_drop_cons pages k hk,
        stub_trace_cons 2000 k (pages.length - k) (by omega)]
      have heq : pages.length - k - 1 = pages.length - (k + 1) := by omega
      rw [heq]
      simp [List.append_assoc]
    · have htok : (stubProvider pages k).next_page_token = none := by
        simp [stubProvider, hlast]
      rw [htok]
      show some (Except.ok (acc ++ (stubProvider pages k).results,
          tr ++ [PageEv.request k])) = _
      have h1 : pages.length - k = 1 := by omega
      rw [h1]
      have hdropflat : (pages.drop k).flatten = pages.getD k [] := by
        rw [stub_drop_cons pages k hk, List.drop_eq_nil_of_le (by omega)]
        simp
      rw [hdropflat]
      rfl

theorem textSearchAllGo_alwaysTok (fuel : Nat) :
    ∀ (k : Nat) (acc : List Nat) (tr : List PageEv),
      textSearchAllGo alwaysTokenProvider fuel k acc tr = none := by
  induction fuel with
  | zero => intro k acc tr; rfl
  | succ fuel ih =>
    intro k acc tr
    rw [textSearchAllGo_succ]
    exact ih (k + 1) _ _

theorem textSearchAllPagesGo_alwaysTok (fuel : Nat) :
    ∀ (k : Nat) (acc : List Nat) (tr : List PageEv),
      textSearchAllPagesGo alwaysTokenProvider fuel k acc tr = none := by
  induction fuel with
  | zero => intro k acc tr; rfl
  | succ fuel ih =>
    intro k acc tr
    rw [textSearchAllPagesGo_succ]
    rw [if_neg (by simp [alwaysTokenProvider])]
    exact ih (k + 1) _ _

/-- The pagination loop never exits on this provider, whatever the iteration
bound: the `while (true)` of the source does not terminate. -/
def loopsForever (prov : Nat → Page) : Prop :=
  ∀ fuel, textSearchAll prov fuel = none

/-- Same, for `textSearchAllPages` of src/unnamed/part_001. -/
def loopsForeverPages (prov : Nat → Page) : Prop :=
  ∀ fuel, textSearchAllPages prov fuel = none

/-- C5 counterexample: there is NO hard page cap — src/index.js even
advertises "paginación sin límite". Against the concrete upstream that
always returns a continuation token, both pagination loops run forever
(no iteration bound makes them reach their exit), refuting "termination is
guaranteed even against an upstream that always returns a continuation
token". -/
theorem pagination_always_token_loops_forever :
    loopsForever alwaysTokenProvider ∧
    loopsForeverPages alwaysTokenProvider :=
  ⟨fun fuel => textSearchAllGo_alwaysTok fuel 0 [] [],
   fun fuel => textSearchAllPagesGo_alwaysTok fuel 0 [] []⟩

/-- C5 (amended): for a provider stub returning N pages (continuation tokens
then none), both loops terminate and return the concatenation of all N
pages' results in page order, issuing exactly N requests with the mandated
fixed delay (2200 ms in src/index.js, 2000 ms in src/unnamed/part_001)
between consecutive page requests; but there is no hard page cap, and
against an upstream that always returns a continuation token the loops never
terminate. -/
theorem pagination_n_pages_exact (pages : List (List Nat)) (fuel : Nat)
    (hne : pages ≠ []) (hfuel : pages.length ≤ fuel) :
    textSearchAll (stubProvider pages) fuel =
      some (pages.flatten, pageTraceFrom 2200 0 pages.length) ∧
    textSearchAllPages (stubProvider pages) fuel =
      some (Except.ok (pages.flatten, pageTraceFrom 2000 0 pages.length)) ∧
    countRequests (pageTraceFrom 2200 0 pages.length) = pages.length ∧
    countSleeps (pageTraceFrom 2200 0 pages.length) = pages.length - 1 ∧
    sleepsAre 2200 (pageTraceFrom 2200 0 pages.length) ∧
    countRequests (pageTraceFrom 2000 0 pages.length) = pages.length ∧
    countSleeps (pageTraceFrom 2000 0 pages.length) = pages.length - 1 ∧
    sleepsAre 2000 (pageTraceFrom 2000 0 pages.length) ∧
    loopsForever alwaysTokenProvider ∧
    loopsForeverPages alwaysTokenProvider := by
  have hk : 0 < pages.length := List.length_pos.mpr hne
  have h1 := textSearchAllGo_stub pages fuel 0 [] [] hk (by omega)
  have h2 := textSearchAllPagesGo_stub pages fuel 0 [] [] hk (by omega)
  have hs1 := pageTraceFrom_spec 2200 pages.length 0
  have hs2 := pageTraceFrom_spec 2000 pages.length 0
  refine ⟨?_, ?_, hs1.1, hs1.2.1, hs1.2.2, hs2.1, hs2.2.1, hs2.2.2,
    fun fuel2 => textSearchAllGo_alwaysTok fuel2 0 [] [],
    fun fuel2 => textSearchAllPagesGo_alwaysTok fuel2 0 [] []⟩
  · rw [textSearchAll, h1]
    simp
  · rw [textSearchAllPages, h2]
    simp

/-- Witness for C5 (amended) at a concrete two-page stub. -/
theorem pagination_n_pages_exact_witness :
    textSearchAll (stubProvider [[1, 2], [3]]) 2 =
      some ([1, 2, 3],
        [PageEv.request 0, PageEv.sleep 2200, PageEv.request 1]) ∧
    textSearchAllPages (stubProvider [[1, 2], [3]]) 2 =
      some (Except.ok ([1, 2, 3],
        [PageEv.request 0, PageEv.sleep 2000, PageEv.request 1])) := by
  have h := pagination_n_pages_exact [[1, 2], [3]] 2 (by decide) (by norm_num)
  exact ⟨by rw [h.1]; rfl, by rw [h.2.1]; rfl⟩

/-! ## Bounded-concurrency mapper (C3, C4)

`mapWithConcurrency` from src/unnamed/part_001 lines 181–202:

```js
async function mapWithConcurrency(items, limit, mapper) \x7b
  const results = [];
  let idx = 0;
  async function worker() \x7b
    while (idx < items.length) \x7b
      const myIndex = idx++;
      try \x7b
        results[myIndex] = await mapper(items[myIndex], myIndex);
      \x7d catch (e) \x7b
        results[myIndex] = null;
      \x7d
    \x7d
  \x7d
  const workers = Array(Math.min(limit, items.length))
    .fill(0)
    .map(() => worker());
  await Promise.all(workers);
  return results;
\x7d
```

Modelled as a small-step machine over an arbitrary interleaving: each worker
is `idle` (at the loop head), `computing i` (suspended inside
`await mapper(items[i], i)` after atomically claiming `myIndex = idx++`), or
`done` (loop exited). A schedule is the sequence of worker indices chosen to
take a step; the theorems quantify over ALL schedules, so completion order
is arbitrary. The value written at index `i` is `write i`; for
`mapWithConcurrency` proper, `write i = mapper items[i] i : Option γ`, where
`none` models the `null` written by the catch when the mapper throws.
JS single-threadedness makes the claim `idx++` atomic; giving the claim and
the write separate steps only adds interleavings, so the properties proved
here cover the source's coarser-grained ones.
-/

/-- Status of one worker of the pool. -/
inductive WStatus
  | idle
  | computing (i : Nat)
  | done
deriving DecidableEq

/-- Machine state: the shared cursor `idx`, the worker pool, and the
`results` array (`none` = slot not yet written). -/
structure MState (β : Type) where
  cursor : Nat
  workers : List WStatus
  results : List (Option β)
deriving DecidableEq

/-- One scheduler step: worker `w` runs until its next suspension point. -/
def wstep (write : Nat → β) (M : Nat) (s : MState β) (w : Nat) : MState β :=
  match s.workers.getD w .done with
  | .idle =>
    if s.cursor < M then
      { cursor := s.cursor + 1,
        workers := s.workers.set w (.computing s.cursor),
        results := s.results }
    else
      { s with workers := s.workers.set w .done }
  | .computing i =>
    { s with
      workers := s.workers.set w .idle,
      results := s.results.set i (some (write i)) }
  | .done => s

/-- Run a whole schedule. -/
def wexec (write : Nat → β) (M : Nat) (s : MState β) (sched : List Nat) :
    MState β :=
  sched.foldl (wstep write M) s

/-- `Array(Math.min(limit, items.length)).fill(0).map(() => worker())`:
`min K M` workers start at the loop head; no slot is written yet. -/
def winit (β : Type) (M K : Nat) : MState β :=
  ⟨0, List.replicate (min K M) .idle, List.replicate M none⟩

/-- `Promise.all(workers)` has resolved: every worker exited its loop. -/
def terminalState (s : MState β) : Prop :=
  ∀ w ∈ s.workers, w = WStatus.done

instance (β : Type) [DecidableEq β] (s : MState β) :
    Decidable (terminalState s) :=
  List.decidableBAll _ s.workers

theorem getD_set_self {X : Type} (l : List X) (i : Nat) (a d : X)
    (h : i < l.length) : (l.set i a).getD i d = a := by
  simp [List.getD_eq_getElem?_getD, List.getElem?_set_self', h]

theorem getD_set_ne {X : Type} (l : List X) (i j : Nat) (a d : X)
    (h : i ≠ j) : (l.set i a).getD j d = l.getD j d := by
  simp [List.getD_eq_getElem?_getD, List.getElem?_set_ne h]

theorem wstep_of_done {β : Type} (write : Nat → β) (M : Nat) (s : MState β)
    (w : Nat) (h : s.workers.getD w .done = .done) : wstep write M s w = s := by
  unfold wstep
  rw [h]

theorem wstep_of_idle_claim {β : Type} (write : Nat → β) (M : Nat)
    (s : MState β) (w : Nat) (h : s.workers.getD w .done = .idle)
    (hc : s.cursor < M) :
    wstep write M s w =
      { cursor := s.cursor + 1,
        workers := s.workers.set w (.computing s.cursor),
        results := s.results } := by
  unfold wstep
  rw [h]
  simp [hc]

theorem wstep_of_idle_exit {β : Type} (write : Nat → β) (M : Nat)
    (s : MState β) (w : Nat) (h : s.workers.getD w .done = .idle)
    (hc : ¬ s.cursor < M) :
    wstep write M s w = { s with workers := s.workers.set w .done } := by
  unfold wstep
  rw [h]
  simp [hc]

theorem wstep_of_computing {β : Type} (write : Nat → β) (M : Nat)
    (s : MState β) (w i : Nat) (h : s.workers.getD w .done = .computing i) :
    wstep write M s w =
      { s with
        workers := s.workers.set w .idle,
        results := s.results.set i (some (write i)) } := by
  unfold wstep
  rw [h]

/-- Machine invariant: lengths are stable; every claimed index is written or
in flight; written slots hold `write i`; in-flight indices are claimed; a
worker only exits once the cursor passed `M`. -/
def WInv {β : Type} (write : Nat → β) (M K : Nat) (s : MState β) : Prop :=
  s.cursor ≤ M ∧
  s.workers.length = min K M ∧
  s.results.length = M ∧
  (∀ i, i < s.cursor → s.results.getD i none ≠ none ∨
    ∃ w, s.workers.getD w .done = .computing i) ∧
  (∀ i v, s.results.getD i none = some v → v = write i) ∧
  (∀ w i, s.workers.getD w .done = .computing i → i < s.cursor) ∧
  ((∃ w, w < s.workers.length ∧ s.workers.getD w .done = .done) →
    M ≤ s.cursor)

theorem getD_in_range {X : Type} (l : List X) (w : Nat) (d : X)
    (h : w < l.length) : l.getD w d = l[w] := by
  rw [List.getD_eq_getElem?_getD, List.getElem?_eq_getElem h]
  rfl

theorem workers_in_range {β : Type} (s : MState β) (w : Nat)
    (h : s.workers.getD w .done ≠ .done) : w < s.workers.length := by
  by_contra hge
  push_neg at hge
  rw [List.getD_eq_getElem?_getD, List.getElem?_eq_none hge] at h
  exact h rfl

theorem wstep_inv {β : Type} (write : Nat → β) (M K : Nat) (s : MState β)
    (w : Nat) (h : WInv write M K s) : WInv write M K (wstep write M s w) := by
  obtain ⟨hcM, hwl, hrl, hclaimed, hval, hflight, hdone⟩ := h
  cases hs : s.workers.getD w .done with
  | done =>
    rw [wstep_of_done write M s w hs]
    exact ⟨hcM, hwl, hrl, hclaimed, hval, hflight, hdone⟩
  | idle =>
    have hwin : w < s.workers.length :=
      workers_in_range s w (by rw [hs]; simp)
    by_cases hc : s.cursor < M
    · rw [wstep_of_idle_claim write M s w hs hc]
      refine ⟨by show s.cursor + 1 ≤ M; omega, by simpa using hwl, hrl,
        ?_, hval, ?_, ?_⟩
      · intro i hi
        have hi2 : i < s.cursor + 1 := hi
        by_cases hie : i = s.cursor
        · subst hie
          exact Or.inr ⟨w, by rw [getD_set_self _ _ _ _ hwin]⟩
        · rcases hclaimed i (by omega) with hr | ⟨w', hw'⟩
          · exact Or.inl hr
          · by_cases hww : w' = w
            · subst hww
              rw [hw'] at hs
              exact absurd hs (by simp)
            · exact Or.inr ⟨w', by
                rw [getD_set_ne _ _ _ _ _ (fun hh => hww hh.symm)]
                exact hw'⟩
      · intro w' i hw'
        by_cases hww : w' = w
        · subst hww
          rw [getD_set_self _ _ _ _ hwin] at hw'
          injection hw' with hh
          show i < s.cursor + 1
          omega
        · rw [getD_set_ne _ _ _ _ _ (fun hh => hww hh.symm)] at hw'
          have := hflight w' i hw'
          show i < s.cursor + 1
          omega
      · rintro ⟨w', hw'len, hw'd⟩
        by_cases hww : w' = w
        · subst hww
          rw [getD_set_self _ _ _ _ hwin] at hw'd
          exact absurd hw'd (by simp)
        · rw [getD_set_ne _ _ _ _ _ (fun hh => hww hh.symm)] at hw'd
          have := hdone ⟨w', by simpa using hw'len, hw'd⟩
          show M ≤ s.cursor + 1
          omega
    · rw [wstep_of_idle_exit write M s w hs hc]
      refine ⟨hcM, by simpa using hwl, hrl, ?_, hval, ?_,
        fun _ => by show M ≤ s.cursor; omega⟩
      · intro i hi
        rcases hclaimed i hi with hr | ⟨w', hw'⟩
        · exact Or.inl hr
        · by_cases hww : w' = w
          · subst hww
            rw [hw'] at hs
            exact absurd hs (by simp)
          · exact Or.inr ⟨w', by
              rw [getD_set_ne _ _ _ _ _ (fun hh => hww hh.symm)]
              exact hw'⟩
      · intro w' i hw'
        by_cases hww : w' = w
        · subst hww
          rw [getD_set_self _ _ _ _ hwin] at hw'
          exact absurd hw' (by simp)
        · rw [getD_set_ne _ _ _ _ _ (fun hh => hww hh.symm)] at hw'
          exact hflight w' i hw'
  | computing i0 =>
    rw [wstep_of_computing write M s w i0 hs]
    have hwin : w < s.workers.length :=
      workers_in_range s w (by rw [hs]; simp)
    have hi0 : i0 < s.cursor := hflight w i0 hs
    have hi0r : i0 < s.results.length := by omega
    refine ⟨hcM, by simpa using hwl, by simpa using hrl, ?_, ?_, ?_, ?_⟩
    · intro i hi
      by_cases hie : i = i0
      · subst hie
        left
        rw [getD_set_self _ _ _ _ hi0r]
        simp
      · rcases hclaimed i hi with hr | ⟨w', hw'⟩
        · left
          rw [getD_set_ne _ _ _ _ _ (fun hh => hie hh.symm)]
          exact hr
        · by_cases hww : w' = w
          · subst hww
            rw [hs] at hw'
            injection hw' with hh
            exact absurd hh.symm hie
          · exact Or.inr ⟨w', by
              rw [getD_set_ne _ _ _ _ _ (fun hh => hww hh.symm)]
              exact hw'⟩
    · intro i v hv
      by_cases hie : i = i0
      · subst hie
        rw [getD_set_self _ _ _ _ hi0r] at hv
        injection hv with hh
        exact hh.symm
      · rw [getD_set_ne _ _ _ _ _ (fun hh => hie hh.symm)] at hv
        exact hval i v hv
    · intro w' i hw'
      by_cases hww : w' = w
      · subst hww
        rw [getD_set_self _ _ _ _ hwin] at hw'
        exact absurd hw' (by simp)
      · rw [getD_set_ne _ _ _ _ _ (fun hh => hww hh.symm)] at hw'
        exact hflight w' i hw'
    · rintro ⟨w', hw'len, hw'd⟩
      by_cases hww : w' = w
      · subst hww
        rw [getD_set_self _ _ _ _ hwin] at hw'd
        exact absurd hw'd (by simp)
      · rw [getD_set_ne _ _ _ _ _ (fun hh => hww hh.symm)] at hw'd
        exact hdone ⟨w', by simpa using hw'len, hw'd⟩

theorem winit_inv {β : Type} (write : Nat → β) (M K : Nat) :
    WInv write M K (winit β M K) := by
  refine ⟨by simp [winit], by simp [winit], by simp [winit], ?_, ?_, ?_, ?_⟩
  · intro i hi
    exact absurd hi (by simp [winit])
  · intro i v hv
    rw [winit, List.getD_eq_getElem?_getD] at hv
    rcases Nat.lt_or_ge i M with hiM | hiM
    · rw [List.getElem?_eq_getElem (by simpa using hiM)] at hv
      simp at hv
    · rw [List.getElem?_eq_none (by simpa using hiM)] at hv
      simp at hv
  · intro w i hw
    rw [winit, List.getD_eq_getElem?_getD] at hw
    rcases Nat.lt_or_ge w (min K M) with hwK | hwK
    · rw [List.getElem?_eq_getElem (by simpa using hwK)] at hw
      simp at hw
    · rw [List.getElem?_eq_none (by simpa using hwK)] at hw
      simp at hw
  · rintro ⟨w, hwlen, hwd⟩
    rw [winit, List.getD_eq_getElem?_getD,
      List.getElem?_eq_getElem (by simpa [winit] using hwlen)] at hwd
    simp at hwd

theorem wexec_inv {β : Type} (write : Nat → β) (M K : Nat)
    (sched : List Nat) :
    WInv write M K (wexec write M (winit β M K) sched) :=
  foldl_preserve (WInv write M K) (wstep write M)
    (fun s a h => wstep_inv write M K s a h) sched _ (winit_inv write M K)

/-- In every terminal state reachable from the initial pool under ANY
schedule (with 1 ≤ K workers, K ≤ M), the results array has length `M` and
slot `i` holds exactly `write i`; the pool size is `min K M` throughout. -/
theorem wexec_terminal_results {β : Type} (write : Nat → β) (M K : Nat)
    (sched : List Nat) (hK : 1 ≤ K) (hKM : K ≤ M)
    (hterm : terminalState (wexec write M (winit β M K) sched)) :
    (wexec write M (winit β M K) sched).results.length = M ∧
    (wexec write M (winit β M K) sched).workers.length = min K M ∧
    ∀ i, i < M →
      (wexec write M (winit β M K) sched).results.getD i none =
        some (write i) := by
  obtain ⟨hcM, hwl, hrl, hclaimed, hval, hflight, hdone⟩ :=
    wexec_inv write M K sched
  refine ⟨hrl, hwl, ?_⟩
  have hlen : 0 < (wexec write M (winit β M K) sched).workers.length := by
    rw [hwl]
    omega
  have h0 : (wexec write M (winit β M K) sched).workers.getD 0 .done =
      .done := by
    rw [getD_in_range _ _ _ hlen]
    exact hterm _ (List.getElem_mem hlen)
  have hMc : M ≤ (wexec write M (winit β M K) sched).cursor :=
    hdone ⟨0, hlen, h0⟩
  intro i hi
  rcases hclaimed i (by omega) with hr | ⟨w', hw'⟩
  · rcases Option.ne_none_iff_exists.mp hr with ⟨v, hv⟩
    rw [← hv, hval i v hv.symm]
  · exfalso
    have hw'len : w' < (wexec write M (winit β M K) sched).workers.length :=
      workers_in_range _ w' (by rw [hw']; simp)
    rw [getD_in_range _ _ _ hw'len] at hw'
    have := hterm _ (List.getElem_mem hw'len)
    rw [this] at hw'
    exact absurd hw' (by simp)

/-- The value the worker stores at index `i`:
`results[myIndex] = await mapper(items[myIndex], myIndex)` on success, the
catch's `null` (modelled `none`) when the mapper throws — `mapper` returning
`none` models the throw. -/
def mapperWrite {α γ : Type} (items : List α) (mapper : α → Nat → Option γ)
    (i : Nat) : Option γ :=
  match items[i]? with
  | some a => mapper a i
  | none => none

/-- `mapWithConcurrency` from src/unnamed/part_001, run under the schedule
`sched`: the machine state after `Promise.all` resolves (when `sched` drives
every worker to `done`). -/
def mapWithConcurrency {α γ : Type} (items : List α) (limit : Nat)
    (mapper : α → Nat → Option γ) (sched : List Nat) : MState (Option γ) :=
  wexec (mapperWrite items mapper) items.length
    (winit (Option γ) items.length limit) sched

/-- C3: for every input sequence `items` of length M and concurrency limit K
with 1 ≤ K ≤ M, `mapWithConcurrency` spawns exactly `min K M` workers, and
under EVERY schedule that lets `Promise.all` resolve (i.e. every terminal
state, whatever the completion order of individual items) it returns a
length-M sequence whose position i holds the result of applying the mapper
to `items[i]` — output order equals input order. -/
theorem mapWithConcurrency_index_aligned {α γ : Type} (items : List α)
    (K : Nat) (mapper : α → Nat → Option γ) (sched : List Nat)
    (hK : 1 ≤ K) (hKM : K ≤ items.length)
    (hterm : terminalState (mapWithConcurrency items K mapper sched)) :
    (mapWithConcurrency items K mapper sched).workers.length =
      min K items.length ∧
    (mapWithConcurrency items K mapper sched).results.length =
      items.length ∧
    ∀ i (h : i < items.length),
      (mapWithConcurrency items K mapper sched).results.getD i none =
        some (mapper items[i] i) := by
  have h := wexec_terminal_results (mapperWrite items mapper) items.length K
    sched hK hKM hterm
  unfold mapWithConcurrency
  refine ⟨h.2.1, h.1, ?_⟩
  intro i hi
  rw [h.2.2 i hi]
  simp [mapperWrite, List.getElem?_eq_getElem hi]

/-- Schedule driving worker 0 through all three items, then letting both
workers exit. -/
def cexSched : List Nat := [0, 0, 0, 0, 0, 0, 0, 1]

/-- Witness for C3 at concrete items, limit and schedule. -/
theorem mapWithConcurrency_index_aligned_witness :
    (mapWithConcurrency [10, 20, 30] 2 (fun a _ => some (a * 2))
        cexSched).results.getD 1 none = some (some 40) := by
  have h := mapWithConcurrency_index_aligned [10, 20, 30] 2
    (fun a _ => some (a * 2)) cexSched (by norm_num) (by norm_num)
    (by decide)
  exact h.2.2 1 (by norm_num)

/-- The items of the C4 counterexample run. -/
def cexItems : List Nat := [10, 20, 30]

/-- Mapper that throws (models `null` from the catch) exactly on item 20. -/
def cexMapper : Nat → Nat → Option Nat :=
  fun a _ => if a = 20 then none else some (a + 1)

/-- C4 counterexample: when the mapper throws for the item at index 1, the
catch of `mapWithConcurrency` writes the FIXED sentinel `null` (modelled
`none`) at that index — not a caller-supplied default value: the function
has no default parameter, and the slot differs from e.g. the default `99` a
caller could have asked for. -/
theorem mapWithConcurrency_catch_writes_null :
    terminalState (mapWithConcurrency cexItems 2 cexMapper cexSched) ∧
    (mapWithConcurrency cexItems 2 cexMapper cexSched).results.getD 1 none =
      some none ∧
    (mapWithConcurrency cexItems 2 cexMapper cexSched).results.getD 1 none ≠
      some (some 99) :=
  ⟨by decide, by decide, by decide⟩

/-- C4 (amended): if the mapper throws for the item at index j, the
aggregate call still completes under every schedule that resolves
`Promise.all`, returning a full-length result whose position j holds `null`
(the fixed value written by the per-item catch) while every other index
retains the value actually computed for its item — one item's failure never
cancels or corrupts sibling work. -/
theorem mapWithConcurrency_failure_isolated {α γ : Type} (items : List α)
    (K : Nat) (mapper : α → Nat → Option γ) (sched : List Nat) (j : Nat)
    (hK : 1 ≤ K) (hKM : K ≤ items.length)
    (hterm : terminalState (mapWithConcurrency items K mapper sched))
    (hj : j < items.length) (hthrow : mapper items[j] j = none) :
    (mapWithConcurrency items K mapper sched).results.length =
      items.length ∧
    (mapWithConcurrency items K mapper sched).results.getD j none =
      some none ∧
    ∀ i (h : i < items.length), i ≠ j →
      (mapWithConcurrency items K mapper sched).results.getD i none =
        some (mapper items[i] i) := by
  have h := wexec_terminal_results (mapperWrite items mapper) items.length K
    sched hK hKM hterm
  unfold mapWithConcurrency
  refine ⟨h.1, ?_, ?_⟩
  · rw [h.2.2 j hj]
    simp [mapperWrite, List.getElem?_eq_getElem hj, hthrow]
  · intro i hi _
    rw [h.2.2 i hi]
    simp [mapperWrite, List.getElem?_eq_getElem hi]

/-- Witness for C4 (amended): item 20 at index 1 throws; index 1 holds null,
index 0 holds its computed value 11. -/
theorem mapWithConcurrency_failure_isolated_witness :
    (mapWithConcurrency cexItems 2 cexMapper cexSched).results.getD 1 none =
      some none ∧
    (mapWithConcurrency cexItems 2 cexMapper cexSched).results.getD 0 none =
      some (some 11) := by
  have h := mapWithConcurrency_failure_isolated cexItems 2 cexMapper cexSched
    1 (by norm_num) (by decide) (by decide) (by decide) (by decide)
  exact ⟨h.2.1, h.2.2 0 (by decide) (by norm_num)⟩
